import Mathlib

set_option linter.unusedSectionVars false

/-!
Verification of the Rio ("Run-In-Order") sequential-task-flow runtime
specification against its sources: the two TLA+ modules (`STFSpec` and
`RunInOrder`) and the StarPU benchmark driver `counter_deps.c`.

The first part embeds the `counter_deps.c` driver: the xorshift64
pseudo-random generator, the derived handle indices, and the branch
structure of `run()` that chooses a codelet and assigns handles.
-/

namespace CounterDeps

/-- `DATA_SHIFT` from counter_deps.c: `const uint64_t DATA_SHIFT = 7`. -/
def DATA_SHIFT : Nat := 7

/-- `N_DATA` from counter_deps.c: `const uint64_t N_DATA = 1 << DATA_SHIFT`. -/
def N_DATA : Nat := 1 <<< DATA_SHIFT

/-- Modulus of 64-bit unsigned arithmetic. -/
def U64 : Nat := 2 ^ 64

/-- `rng_new` from counter_deps.c: the generator state is seeded with
`0x92d68ca2`. -/
def rng_new : Nat := 0x92d68ca2

/-- `rng_next` from counter_deps.c: one step of the xorshift64 generator
`x ^= x << 13; x ^= x >> 7; x ^= x << 17` in 64-bit arithmetic.
Left shifts wrap modulo 2^64; xor and right shift cannot overflow. -/
def rng_next (state : Nat) : Nat :=
  let x := state
  let x := x ^^^ ((x <<< 13) % U64)
  let x := x ^^^ (x >>> 7)
  let x := x ^^^ ((x <<< 17) % U64)
  x

/-- The generator state after `n` calls to `rng_next`, starting from the
seed installed by `rng_new`. -/
def rng_state : Nat → Nat
  | 0 => rng_new
  | n + 1 => rng_next (rng_state n)

/-- The value `x = rng_next(&rng)` drawn at loop iteration `i` of `run()`
(0-based): the state after `i + 1` generator steps. -/
def rng_out (i : Nat) : Nat := rng_state (i + 1)

/-- `idx_1 = x % N_DATA` in `run()`. -/
def idx_1 (x : Nat) : Nat := x % N_DATA

/-- `idx_2 = (x >> DATA_SHIFT) % N_DATA` in `run()`. -/
def idx_2 (x : Nat) : Nat := (x >>> DATA_SHIFT) % N_DATA

/-- `idx_3 = (x >> (2 * DATA_SHIFT)) % N_DATA` in `run()`. -/
def idx_3 (x : Nat) : Nat := (x >>> (2 * DATA_SHIFT)) % N_DATA

/-- StarPU access modes used by the three codelets of counter_deps.c. -/
inductive StarpuMode
  | R
  | RW
deriving DecidableEq, Repr

/-- The fields of a `starpu_codelet` relevant to dependency tracking:
the number of buffers and their access modes. -/
structure Codelet where
  nbuffers : Nat
  modes : List StarpuMode
deriving DecidableEq, Repr

/-- `count1_codelet`: 1 buffer, mode `STARPU_R`. -/
def count1_codelet : Codelet := ⟨1, [StarpuMode.R]⟩

/-- `count2_codelet`: 2 buffers, modes `STARPU_R, STARPU_R`. -/
def count2_codelet : Codelet := ⟨2, [StarpuMode.R, StarpuMode.R]⟩

/-- `count3_codelet`: 3 buffers, modes `STARPU_R, STARPU_R, STARPU_RW`.
Defined in counter_deps.c but never assigned to any task in `run()`. -/
def count3_codelet : Codelet := ⟨3, [StarpuMode.R, StarpuMode.R, StarpuMode.RW]⟩

/-- A task as constructed by `run()`: the codelet stored in `task->cl`
and the handle indices written into `task->handles[0..]`. -/
structure SubmittedTask where
  cl : Codelet
  handles : List Nat
deriving DecidableEq, Repr

/-- The branch structure of `run()` in counter_deps.c for one generated
value `x`: chooses a codelet and assigns handle indices.  The final
`else` branch assigns three handles while setting `count2_codelet`. -/
def build_task (x : Nat) : SubmittedTask :=
  if idx_1 x = idx_2 x then
    if idx_1 x = idx_3 x then
      ⟨count1_codelet, [idx_1 x]⟩
    else
      ⟨count2_codelet, [idx_1 x, idx_3 x]⟩
  else
    if idx_1 x = idx_3 x ∨ idx_2 x = idx_3 x then
      ⟨count2_codelet, [idx_1 x, idx_2 x]⟩
    else
      ⟨count2_codelet, [idx_1 x, idx_2 x, idx_3 x]⟩

/-- Execution reaches the final `else` branch of `run()` (the one that
assigns 3 handles) exactly when the three indices are pairwise distinct. -/
def reaches_else3 (x : Nat) : Bool :=
  decide (idx_1 x ≠ idx_2 x) && !(decide (idx_1 x = idx_3 x) || decide (idx_2 x = idx_3 x))

/-- The handle accesses StarPU actually performs for a task: the first
`nbuffers` assigned handles, paired with the codelet's modes. -/
def accesses (t : SubmittedTask) : List (Nat × StarpuMode) :=
  List.zip (t.handles.take t.cl.nbuffers) t.cl.modes

end CounterDeps

/-!
Embedding of the two TLA+ modules.  `STFSpec` is the abstract
sequential-task-flow specification; `RunInOrder` is the refinement in
which a deterministic `Mapping` assigns each task to one worker and each
worker executes its tasks in sequential order.

Tasks are functions from data items to a dependency kind (`"R"`, `"W"`,
`"None"`), the `ControlFlow` is a finite set of `(task, task_id)` pairs,
and a worker state is `Idle` (here `none`) or the executing pair.
-/

/-- The three dependency kinds `"R"`, `"W"` and `"None"` of the TLA+
modules. -/
inductive Mode
  | R
  | W
  | NoAccess
deriving DecidableEq, Repr

/-- The constants shared by the two TLA+ modules: `Tasks` maps a task
name and a data item to a dependency kind, `ControlFlow` is the set of
submitted `(task, task_id)` pairs, and `Mapping` (used only by
`RunInOrder`) deterministically assigns a task identifier to a worker. -/
structure Config (τ δ ω : Type) where
  Tasks : τ → δ → Mode
  ControlFlow : Finset (τ × ℤ)
  Mapping : ℤ → ω

namespace Stf

variable {τ δ ω : Type}

/-- The variables of module `STFSpec`: `pendingTasks` and
`workerStates`, a worker being `Idle` (`none`) or executing a pair. -/
structure State (τ ω : Type) where
  pendingTasks : Finset (τ × ℤ)
  workerStates : ω → Option (τ × ℤ)

variable [DecidableEq τ] [DecidableEq ω] [Fintype ω]

/-- `activeTasks == {workerStates[w]: w ∈ activeWorkers}`. -/
def activeTasks (s : State τ ω) : Finset (τ × ℤ) :=
  Finset.univ.biUnion fun w => (s.workerStates w).toFinset

/-- `Init` of `STFSpec`: all tasks pending, all workers idle. -/
def Init (cfg : Config τ δ ω) (s : State τ ω) : Prop :=
  s.pendingTasks = cfg.ControlFlow ∧ ∀ w, s.workerStates w = none

/-- `DataRaceFreedom` of `STFSpec`: no two active tasks conflict on a
data item with at least one write, except at equal identifiers. -/
def DataRaceFreedom (cfg : Config τ δ ω) (s : State τ ω) : Prop :=
  ∀ task1 ∈ activeTasks s, ∀ task2 ∈ activeTasks s, ∀ d : δ,
    cfg.Tasks task1.1 d = Mode.W →
      task1.2 = task2.2 ∨ cfg.Tasks task2.1 d = Mode.NoAccess

/-- `ReadReady(d, tid)` of `STFSpec`: every pending or active task on
`d` is a non-writer or not earlier in the sequential order. -/
def ReadReady (cfg : Config τ δ ω) (s : State τ ω) (d : δ) (tid : ℤ) : Prop :=
  ∀ p ∈ s.pendingTasks ∪ activeTasks s,
    cfg.Tasks p.1 d = Mode.NoAccess ∨ cfg.Tasks p.1 d = Mode.R ∨ p.2 ≥ tid

/-- `WriteReady(d, tid)` of `STFSpec`: every pending or active task on
`d` is a non-accessor or not earlier in the sequential order. -/
def WriteReady (cfg : Config τ δ ω) (s : State τ ω) (d : δ) (tid : ℤ) : Prop :=
  ∀ p ∈ s.pendingTasks ∪ activeTasks s,
    cfg.Tasks p.1 d = Mode.NoAccess ∨ p.2 ≥ tid

/-- `TaskReady(t, tid)` of `STFSpec`. -/
def TaskReady (cfg : Config τ δ ω) (s : State τ ω) (t : τ) (tid : ℤ) : Prop :=
  ∀ d : δ,
    cfg.Tasks t d = Mode.NoAccess ∨
    (cfg.Tasks t d = Mode.R ∧ ReadReady cfg s d tid) ∨
    (cfg.Tasks t d = Mode.W ∧ WriteReady cfg s d tid)

/-- `ExecuteTask(w, t, tid)` of `STFSpec`, at the pair `p = <<t, tid>>`. -/
def ExecuteTask (cfg : Config τ δ ω) (w : ω) (p : τ × ℤ) (s s' : State τ ω) : Prop :=
  TaskReady cfg s p.1 p.2 ∧
  s.workerStates w = none ∧
  s'.workerStates = Function.update s.workerStates w (some p) ∧
  s'.pendingTasks = s.pendingTasks \ {p}

/-- `TerminateTask(w)` of `STFSpec`. -/
def TerminateTask (w : ω) (s s' : State τ ω) : Prop :=
  (∃ p, s.workerStates w = some p) ∧
  s'.workerStates = Function.update s.workerStates w none ∧
  s'.pendingTasks = s.pendingTasks

/-- `Next` of `STFSpec`. -/
def Next (cfg : Config τ δ ω) (s s' : State τ ω) : Prop :=
  ∃ w : ω, (∃ p ∈ s.pendingTasks, ExecuteTask cfg w p s s') ∨ TerminateTask w s s'

/-- `Terminated` of `STFSpec`: no pending and no active task. -/
def Terminated (s : State τ ω) : Prop :=
  s.pendingTasks ∪ activeTasks s = ∅

/-- `<<Next>>_vars`: a genuine (non-stuttering) step at instant `n`. -/
def NextStep (cfg : Config τ δ ω) (σ : ℕ → State τ ω) (n : ℕ) : Prop :=
  Next cfg (σ n) (σ (n + 1)) ∧ σ (n + 1) ≠ σ n

/-- `ENABLED <<Next>>_vars`. -/
def Enabled (cfg : Config τ δ ω) (s : State τ ω) : Prop :=
  ∃ s', Next cfg s s' ∧ s' ≠ s

/-- `Spec` of `STFSpec` over a discrete behavior: `Init`, stuttering
steps of `Next`, and weak fairness of `Next`. -/
def Behavior (cfg : Config τ δ ω) (σ : ℕ → State τ ω) : Prop :=
  Init cfg (σ 0) ∧
  (∀ n, Next cfg (σ n) (σ (n + 1)) ∨ σ (n + 1) = σ n) ∧
  (∀ n, (∀ m, n ≤ m → Enabled cfg (σ m)) → ∃ m, n ≤ m ∧ NextStep cfg σ m)

end Stf

namespace RunInOrder

variable {τ δ ω : Type}

/-- The variables of module `RunInOrder`: per-worker pending queues, the
set of terminated tasks, and the worker states. -/
structure State (τ ω : Type) where
  workerPendingTasks : ω → Finset (τ × ℤ)
  terminatedTasks : Finset (τ × ℤ)
  workerStates : ω → Option (τ × ℤ)

variable [DecidableEq τ] [DecidableEq ω] [Fintype ω]

/-- `pendingTasks == UNION {workerPendingTasks[w]: w ∈ Workers}`. -/
def pendingTasks (s : State τ ω) : Finset (τ × ℤ) :=
  Finset.univ.biUnion fun w => s.workerPendingTasks w

/-- `activeTasks == {workerStates[w]: w ∈ activeWorkers}`. -/
def activeTasks (s : State τ ω) : Finset (τ × ℤ) :=
  Finset.univ.biUnion fun w => (s.workerStates w).toFinset

/-- The tasks the `Mapping` attributes to worker `w`:
`{<<t, tid>> ∈ ControlFlow: Mapping[tid] = w}`. -/
def assigned (cfg : Config τ δ ω) (w : ω) : Finset (τ × ℤ) :=
  cfg.ControlFlow.filter fun p => cfg.Mapping p.2 = w

/-- `Init` of `RunInOrder`: no terminated task, all workers idle, and
each queue populated from the `Mapping`. -/
def Init (cfg : Config τ δ ω) (s : State τ ω) : Prop :=
  s.terminatedTasks = ∅ ∧
  (∀ w, s.workerStates w = none) ∧
  ∀ w, s.workerPendingTasks w = assigned cfg w

/-- `ReadReady(d, tid)` of `RunInOrder`: quantified over the whole
`ControlFlow`, with terminated tasks discharged. -/
def ReadReady (cfg : Config τ δ ω) (s : State τ ω) (d : δ) (tid : ℤ) : Prop :=
  ∀ p ∈ cfg.ControlFlow,
    cfg.Tasks p.1 d = Mode.NoAccess ∨ cfg.Tasks p.1 d = Mode.R ∨
      tid ≤ p.2 ∨ p ∈ s.terminatedTasks

/-- `WriteReady(d, tid)` of `RunInOrder`. -/
def WriteReady (cfg : Config τ δ ω) (s : State τ ω) (d : δ) (tid : ℤ) : Prop :=
  ∀ p ∈ cfg.ControlFlow,
    cfg.Tasks p.1 d = Mode.NoAccess ∨ tid ≤ p.2 ∨ p ∈ s.terminatedTasks

/-- `TaskReady(t, tid)` of `RunInOrder`. -/
def TaskReady (cfg : Config τ δ ω) (s : State τ ω) (t : τ) (tid : ℤ) : Prop :=
  ∀ d : δ,
    cfg.Tasks t d = Mode.NoAccess ∨
    (cfg.Tasks t d = Mode.R ∧ ReadReady cfg s d tid) ∨
    (cfg.Tasks t d = Mode.W ∧ WriteReady cfg s d tid)

/-- `ExecuteTask(w)` of `RunInOrder`, at the chosen pair `p`: the worker
is idle, `p` is the minimum of its queue by identifier, `p` is ready,
and `p` moves from the queue to the worker's state. -/
def ExecuteTaskOn (cfg : Config τ δ ω) (w : ω) (p : τ × ℤ) (s s' : State τ ω) : Prop :=
  s.workerStates w = none ∧
  p ∈ s.workerPendingTasks w ∧
  (∀ q ∈ s.workerPendingTasks w, p.2 ≤ q.2) ∧
  TaskReady cfg s p.1 p.2 ∧
  s'.workerPendingTasks =
    Function.update s.workerPendingTasks w (s.workerPendingTasks w \ {p}) ∧
  s'.workerStates = Function.update s.workerStates w (some p) ∧
  s'.terminatedTasks = s.terminatedTasks

/-- `ExecuteTask(w)` of `RunInOrder`. -/
def ExecuteTask (cfg : Config τ δ ω) (w : ω) (s s' : State τ ω) : Prop :=
  ∃ p, ExecuteTaskOn cfg w p s s'

/-- `TerminateTask(w)` of `RunInOrder`: the worker is executing some
pair, becomes idle, and its pair joins the terminated set. -/
def TerminateTask (w : ω) (s s' : State τ ω) : Prop :=
  ∃ p, s.workerStates w = some p ∧
    s'.workerStates = Function.update s.workerStates w none ∧
    s'.terminatedTasks = s.terminatedTasks ∪ {p} ∧
    s'.workerPendingTasks = s.workerPendingTasks

/-- `Next` of `RunInOrder`. -/
def Next (cfg : Config τ δ ω) (s s' : State τ ω) : Prop :=
  ∃ w : ω, ExecuteTask cfg w s s' ∨ TerminateTask w s s'

/-- Global quiescence of the `RunInOrder` model: no pending task and no
executing worker. -/
def Terminated (s : State τ ω) : Prop :=
  pendingTasks s = ∅ ∧ ∀ w, s.workerStates w = none

/-- `<<Next>>_vars`: a genuine (non-stuttering) step at instant `n`. -/
def NextStep (cfg : Config τ δ ω) (σ : ℕ → State τ ω) (n : ℕ) : Prop :=
  Next cfg (σ n) (σ (n + 1)) ∧ σ (n + 1) ≠ σ n

/-- `ENABLED <<Next>>_vars`. -/
def Enabled (cfg : Config τ δ ω) (s : State τ ω) : Prop :=
  ∃ s', Next cfg s s' ∧ s' ≠ s

/-- The safety part of `Spec`: `Init` and stuttering steps of `Next`. -/
def Trace (cfg : Config τ δ ω) (σ : ℕ → State τ ω) : Prop :=
  Init cfg (σ 0) ∧ ∀ n, Next cfg (σ n) (σ (n + 1)) ∨ σ (n + 1) = σ n

/-- `Spec` of `RunInOrder` over a discrete behavior: `Init`, stuttering
steps of `Next`, and weak fairness of `Next`. -/
def Behavior (cfg : Config τ δ ω) (σ : ℕ → State τ ω) : Prop :=
  Trace cfg σ ∧
  ∀ n, (∀ m, n ≤ m → Enabled cfg (σ m)) → ∃ m, n ≤ m ∧ NextStep cfg σ m

/-- The states reachable from an initial state by `Next` steps. -/
def Reachable (cfg : Config τ δ ω) (s : State τ ω) : Prop :=
  ∃ s₀, Init cfg s₀ ∧ Relation.ReflTransGen (Next cfg) s₀ s

/-- The refinement mapping into the abstract `STFSpec` state:
`pendingTasks` becomes the union of the worker queues, `workerStates`
is unchanged (this is the `INSTANCE STFSpec` substitution). -/
def refineState (s : State τ ω) : Stf.State τ ω :=
  ⟨pendingTasks s, s.workerStates⟩

/-- The inductive invariant of the `RunInOrder` model: queues hold only
tasks the `Mapping` assigns to them, an executing pair is a ready task
of the `ControlFlow` on its mapped worker and nowhere else, terminated
tasks come from the `ControlFlow`, queues and the terminated set are
disjoint, and pending, active and terminated tasks cover the
`ControlFlow` (the `TypeOK` partition). -/
def Inv (cfg : Config τ δ ω) (s : State τ ω) : Prop :=
  (∀ w, s.workerPendingTasks w ⊆ assigned cfg w) ∧
  (∀ w p, s.workerStates w = some p →
    p ∈ cfg.ControlFlow ∧ cfg.Mapping p.2 = w ∧ p ∉ s.terminatedTasks ∧
    (∀ w', p ∉ s.workerPendingTasks w') ∧ TaskReady cfg s p.1 p.2) ∧
  s.terminatedTasks ⊆ cfg.ControlFlow ∧
  (∀ w p, p ∈ s.workerPendingTasks w → p ∉ s.terminatedTasks) ∧
  pendingTasks s ∪ activeTasks s ∪ s.terminatedTasks = cfg.ControlFlow

/-- The variant used for termination: pending tasks count double, plus
the number of executing workers; every `Next` step decreases it. -/
def stepMeasure (s : State τ ω) : ℕ :=
  2 * (∑ w : ω, (s.workerPendingTasks w).card) +
    (Finset.univ.filter fun w : ω => s.workerStates w ≠ none).card

end RunInOrder

/-!
Concrete model instances used to exhibit satisfiable hypotheses.
-/

/-- The empty instance: no data, one worker, empty control flow. -/
def trivConfig : Config Unit Unit Unit :=
  ⟨fun _ _ => Mode.NoAccess, ∅, fun _ => ()⟩

/-- The (initial and only) state of the empty instance. -/
def trivState : RunInOrder.State Unit Unit :=
  ⟨fun _ => ∅, ∅, fun _ => none⟩

/-- The constant behavior of the empty instance. -/
def trivSeq : ℕ → RunInOrder.State Unit Unit := fun _ => trivState

/-- A one-task instance: a single writer task with identifier 0. -/
def oneConfig : Config Unit Unit Unit :=
  ⟨fun _ _ => Mode.W, {((), 0)}, fun _ => ()⟩

/-- The initial state of the one-task instance. -/
def oneInit : RunInOrder.State Unit Unit :=
  ⟨fun _ => {((), 0)}, ∅, fun _ => none⟩

/-- A two-task instance on one worker: tasks `false` (identifier 0) and
`true` (identifier 1), with no data accesses. -/
def chainConfig : Config Bool Unit Unit :=
  ⟨fun _ _ => Mode.NoAccess, {(false, 0), (true, 1)}, fun _ => ()⟩

/-- Initial state of the two-task instance. -/
def chainS0 : RunInOrder.State Bool Unit :=
  ⟨fun _ => {(false, 0), (true, 1)}, ∅, fun _ => none⟩

/-- After the worker starts task `(false, 0)`. -/
def chainS1 : RunInOrder.State Bool Unit :=
  ⟨Function.update chainS0.workerPendingTasks ()
      (chainS0.workerPendingTasks () \ {(false, 0)}),
   chainS0.terminatedTasks,
   Function.update chainS0.workerStates () (some (false, 0))⟩

/-- After the worker terminates task `(false, 0)`. -/
def chainS2 : RunInOrder.State Bool Unit :=
  ⟨chainS1.workerPendingTasks,
   chainS1.terminatedTasks ∪ {(false, 0)},
   Function.update chainS1.workerStates () none⟩

/-- After the worker starts task `(true, 1)`. -/
def chainS3 : RunInOrder.State Bool Unit :=
  ⟨Function.update chainS2.workerPendingTasks ()
      (chainS2.workerPendingTasks () \ {(true, 1)}),
   chainS2.terminatedTasks,
   Function.update chainS2.workerStates () (some (true, 1))⟩

/-- After the worker terminates task `(true, 1)`. -/
def chainS4 : RunInOrder.State Bool Unit :=
  ⟨chainS3.workerPendingTasks,
   chainS3.terminatedTasks ∪ {(true, 1)},
   Function.update chainS3.workerStates () none⟩

/-- The full run of the two-task instance, stuttering at the end. -/
def chainSeq : ℕ → RunInOrder.State Bool Unit
  | 0 => chainS0
  | 1 => chainS1
  | 2 => chainS2
  | 3 => chainS3
  | _ => chainS4

/-!
Basic lemmas about the embedded models.
-/

namespace RunInOrder

variable {τ δ ω : Type} [DecidableEq τ] [DecidableEq ω] [Fintype ω]

theorem mem_pendingTasks {s : State τ ω} {p : τ × ℤ} :
    p ∈ pendingTasks s ↔ ∃ w, p ∈ s.workerPendingTasks w := by
  simp [pendingTasks]

theorem mem_activeTasks {s : State τ ω} {p : τ × ℤ} :
    p ∈ activeTasks s ↔ ∃ w, s.workerStates w = some p := by
  simp [activeTasks, eq_comm]

theorem readReady_mono {cfg : Config τ δ ω} {s s' : State τ ω}
    (h : s.terminatedTasks ⊆ s'.terminatedTasks) {d : δ} {tid : ℤ}
    (hr : ReadReady cfg s d tid) : ReadReady cfg s' d tid := by
  intro p hp
  rcases hr p hp with h1 | h1 | h1 | h1
  · exact Or.inl h1
  · exact Or.inr (Or.inl h1)
  · exact Or.inr (Or.inr (Or.inl h1))
  · exact Or.inr (Or.inr (Or.inr (h h1)))

theorem writeReady_mono {cfg : Config τ δ ω} {s s' : State τ ω}
    (h : s.terminatedTasks ⊆ s'.terminatedTasks) {d : δ} {tid : ℤ}
    (hr : WriteReady cfg s d tid) : WriteReady cfg s' d tid := by
  intro p hp
  rcases hr p hp with h1 | h1 | h1
  · exact Or.inl h1
  · exact Or.inr (Or.inl h1)
  · exact Or.inr (Or.inr (h h1))

theorem taskReady_mono {cfg : Config τ δ ω} {s s' : State τ ω}
    (h : s.terminatedTasks ⊆ s'.terminatedTasks) {t : τ} {tid : ℤ}
    (hr : TaskReady cfg s t tid) : TaskReady cfg s' t tid := by
  intro d
  rcases hr d with h1 | ⟨h1, h2⟩ | ⟨h1, h2⟩
  · exact Or.inl h1
  · exact Or.inr (Or.inl ⟨h1, readReady_mono h h2⟩)
  · exact Or.inr (Or.inr ⟨h1, writeReady_mono h h2⟩)

theorem terminate_subset {w : ω} {s s' : State τ ω}
    (h : TerminateTask w s s') : s.terminatedTasks ⊆ s'.terminatedTasks := by
  obtain ⟨p, _, _, hterm, _⟩ := h
  rw [hterm]
  exact Finset.subset_union_left

end RunInOrder

namespace RunInOrder

variable {τ δ ω : Type} [DecidableEq τ] [DecidableEq ω] [Fintype ω]

theorem mem_assigned {cfg : Config τ δ ω} {w : ω} {p : τ × ℤ} :
    p ∈ assigned cfg w ↔ p ∈ cfg.ControlFlow ∧ cfg.Mapping p.2 = w := by
  simp [assigned]

theorem init_pendingTasks {cfg : Config τ δ ω} {s : State τ ω} (h : Init cfg s) :
    pendingTasks s = cfg.ControlFlow := by
  ext p
  rw [mem_pendingTasks]
  constructor
  · rintro ⟨w, hw⟩
    rw [h.2.2 w] at hw
    exact (mem_assigned.mp hw).1
  · intro hp
    exact ⟨cfg.Mapping p.2, by rw [h.2.2]; exact mem_assigned.mpr ⟨hp, rfl⟩⟩

theorem init_inv {cfg : Config τ δ ω} {s : State τ ω} (h : Init cfg s) : Inv cfg s := by
  obtain ⟨hterm, hws, hq⟩ := h
  refine ⟨?_, ?_, ?_, ?_, ?_⟩
  · intro w
    rw [hq w]
  · intro w p hp
    rw [hws w] at hp
    cases hp
  · rw [hterm]
    exact Finset.empty_subset _
  · intro w p _
    rw [hterm]
    simp
  · have hpend := init_pendingTasks ⟨hterm, hws, hq⟩
    have hact : activeTasks s = ∅ := by
      ext p
      rw [mem_activeTasks]
      simp [hws]
    rw [hpend, hact, hterm]
    simp

theorem pending_after_execute {cfg : Config τ δ ω} {w : ω} {p : τ × ℤ}
    {s s' : State τ ω} (inv1 : ∀ w', s.workerPendingTasks w' ⊆ assigned cfg w')
    (hpmap : cfg.Mapping p.2 = w)
    (hq' : s'.workerPendingTasks =
      Function.update s.workerPendingTasks w (s.workerPendingTasks w \ {p})) :
    pendingTasks s' = pendingTasks s \ {p} := by
  ext q
  rw [Finset.mem_sdiff, mem_pendingTasks, mem_pendingTasks, hq']
  constructor
  · rintro ⟨w', hw'⟩
    by_cases hww : w' = w
    · subst hww
      rw [Function.update_same] at hw'
      rw [Finset.mem_sdiff] at hw'
      exact ⟨⟨w', hw'.1⟩, by simpa using hw'.2⟩
    · rw [Function.update_noteq hww] at hw'
      refine ⟨⟨w', hw'⟩, ?_⟩
      intro hqp
      simp only [Finset.mem_singleton] at hqp
      subst hqp
      exact hww ((mem_assigned.mp (inv1 w' hw')).2.symm.trans hpmap)
  · rintro ⟨⟨w', hw'⟩, hqp⟩
    by_cases hww : w' = w
    · subst hww
      exact ⟨w', by rw [Function.update_same, Finset.mem_sdiff]; exact ⟨hw', hqp⟩⟩
    · exact ⟨w', by rw [Function.update_noteq hww]; exact hw'⟩

theorem active_after_execute {w : ω} {p : τ × ℤ} {s s' : State τ ω}
    (hidle : s.workerStates w = none)
    (hws' : s'.workerStates = Function.update s.workerStates w (some p)) :
    activeTasks s' = insert p (activeTasks s) := by
  ext q
  rw [Finset.mem_insert, mem_activeTasks, mem_activeTasks, hws']
  constructor
  · rintro ⟨w', hw'⟩
    by_cases hww : w' = w
    · subst hww
      rw [Function.update_same] at hw'
      exact Or.inl (Option.some_injective _ hw').symm
    · rw [Function.update_noteq hww] at hw'
      exact Or.inr ⟨w', hw'⟩
  · rintro (rfl | ⟨w', hw'⟩)
    · exact ⟨w, by rw [Function.update_same]⟩
    · have hww : w' ≠ w := fun h => by
        subst h
        rw [hidle] at hw'
        cases hw'
      exact ⟨w', by rw [Function.update_noteq hww]; exact hw'⟩

theorem execute_inv {cfg : Config τ δ ω} {w : ω} {p : τ × ℤ} {s s' : State τ ω}
    (hInv : Inv cfg s) (h : ExecuteTaskOn cfg w p s s') : Inv cfg s' := by
  obtain ⟨hidle, hmem, hmin, hready, hq', hws', ht'⟩ := h
  obtain ⟨inv1, inv2, inv3, inv4, inv5⟩ := hInv
  have hpcf : p ∈ cfg.ControlFlow := (mem_assigned.mp (inv1 w hmem)).1
  have hpmap : cfg.Mapping p.2 = w := (mem_assigned.mp (inv1 w hmem)).2
  have hstep_term : s'.terminatedTasks ⊆ s.terminatedTasks := by rw [ht']
  refine ⟨?_, ?_, ?_, ?_, ?_⟩
  · intro w'
    rw [hq']
    by_cases hww : w' = w
    · subst hww
      rw [Function.update_same]
      exact Finset.Subset.trans Finset.sdiff_subset (inv1 w')
    · rw [Function.update_noteq hww]
      exact inv1 w'
  · intro w' q hq
    rw [hws'] at hq
    by_cases hww : w' = w
    · rw [hww, Function.update_same] at hq
      obtain rfl : p = q := Option.some_injective _ hq
      refine ⟨hpcf, by rw [hww]; exact hpmap, by rw [ht']; exact inv4 w p hmem, ?_, ?_⟩
      · intro w''
        rw [hq']
        by_cases hww' : w'' = w
        · rw [hww', Function.update_same, Finset.mem_sdiff]
          simp
        · rw [Function.update_noteq hww']
          intro hmem'
          exact hww' ((mem_assigned.mp (inv1 w'' hmem')).2.symm.trans hpmap)
      · exact taskReady_mono (by rw [ht']) hready
    · rw [Function.update_noteq hww] at hq
      obtain ⟨hqcf, hqmap, hqterm, hqqs, hqready⟩ := inv2 w' q hq
      refine ⟨hqcf, hqmap, by rw [ht']; exact hqterm, ?_, ?_⟩
      · intro w''
        rw [hq']
        by_cases hww' : w'' = w
        · rw [hww', Function.update_same]
          exact fun hmem' => hqqs w (Finset.mem_sdiff.mp hmem').1
        · rw [Function.update_noteq hww']
          exact hqqs w''
      · exact taskReady_mono (by rw [ht']) hqready
  · rw [ht']
    exact inv3
  · intro w' q hq
    rw [hq'] at hq
    rw [ht']
    by_cases hww : w' = w
    · subst hww
      rw [Function.update_same] at hq
      exact inv4 w' q (Finset.mem_sdiff.mp hq).1
    · rw [Function.update_noteq hww] at hq
      exact inv4 w' q hq
  · rw [pending_after_execute inv1 hpmap hq', active_after_execute hidle hws', ht']
    rw [← inv5]
    have hp_pending : p ∈ pendingTasks s := mem_pendingTasks.mpr ⟨w, hmem⟩
    ext q
    simp only [Finset.mem_union, Finset.mem_sdiff, Finset.mem_insert,
      Finset.mem_singleton]
    by_cases hqp : q = p
    · subst hqp
      simp [hp_pending]
    · simp [hqp]

theorem active_after_terminate {cfg : Config τ δ ω} {w : ω} {p : τ × ℤ}
    {s s' : State τ ω}
    (inv2 : ∀ w' q, s.workerStates w' = some q →
      q ∈ cfg.ControlFlow ∧ cfg.Mapping q.2 = w' ∧ q ∉ s.terminatedTasks ∧
      (∀ w'', q ∉ s.workerPendingTasks w'') ∧ TaskReady cfg s q.1 q.2)
    (hwp : s.workerStates w = some p)
    (hws' : s'.workerStates = Function.update s.workerStates w none) :
    activeTasks s' = (activeTasks s).erase p := by
  have hpmap : cfg.Mapping p.2 = w := (inv2 w p hwp).2.1
  ext q
  rw [Finset.mem_erase, mem_activeTasks, mem_activeTasks, hws']
  constructor
  · rintro ⟨w', hw'⟩
    by_cases hww : w' = w
    · subst hww
      rw [Function.update_same] at hw'
      cases hw'
    · rw [Function.update_noteq hww] at hw'
      refine ⟨?_, ⟨w', hw'⟩⟩
      intro hqp
      subst hqp
      exact hww ((inv2 w' q hw').2.1.symm.trans hpmap)
  · rintro ⟨hqp, ⟨w', hw'⟩⟩
    have hww : w' ≠ w := by
      intro h
      subst h
      rw [hwp] at hw'
      exact hqp (Option.some_injective _ hw').symm
    exact ⟨w', by rw [Function.update_noteq hww]; exact hw'⟩

theorem terminate_inv {cfg : Config τ δ ω} {w : ω} {s s' : State τ ω}
    (hInv : Inv cfg s) (h : TerminateTask w s s') : Inv cfg s' := by
  obtain ⟨p, hwp, hws', ht', hq'⟩ := h
  obtain ⟨inv1, inv2, inv3, inv4, inv5⟩ := hInv
  obtain ⟨hpcf, hpmap, hpterm, hpqs, hpready⟩ := inv2 w p hwp
  have hsub : s.terminatedTasks ⊆ s'.terminatedTasks := by
    rw [ht']
    exact Finset.subset_union_left
  refine ⟨?_, ?_, ?_, ?_, ?_⟩
  · intro w'
    rw [hq']
    exact inv1 w'
  · intro w' q hq
    rw [hws'] at hq
    by_cases hww : w' = w
    · subst hww
      rw [Function.update_same] at hq
      cases hq
    · rw [Function.update_noteq hww] at hq
      obtain ⟨hqcf, hqmap, hqterm, hqqs, hqready⟩ := inv2 w' q hq
      refine ⟨hqcf, hqmap, ?_, ?_, taskReady_mono hsub hqready⟩
      · rw [ht']
        rw [Finset.mem_union]
        rintro (hc | hc)
        · exact hqterm hc
        · simp only [Finset.mem_singleton] at hc
          subst hc
          exact hww (hqmap.symm.trans hpmap)
      · intro w''
        rw [hq']
        exact hqqs w''
  · rw [ht']
    exact Finset.union_subset inv3 (by simpa using hpcf)
  · intro w' q hq
    rw [hq'] at hq
    rw [ht', Finset.mem_union]
    rintro (hc | hc)
    · exact inv4 w' q hq hc
    · simp only [Finset.mem_singleton] at hc
      subst hc
      exact hpqs w' hq
  · have hpend : pendingTasks s' = pendingTasks s := by
      unfold pendingTasks
      rw [hq']
    have hp_active : p ∈ activeTasks s := mem_activeTasks.mpr ⟨w, hwp⟩
    rw [hpend, active_after_terminate inv2 hwp hws', ht', ← inv5]
    ext q
    simp only [Finset.mem_union, Finset.mem_erase, Finset.mem_singleton]
    by_cases hqp : q = p
    · subst hqp
      simp [hp_active]
    · simp [hqp]

theorem next_inv {cfg : Config τ δ ω} {s s' : State τ ω}
    (hInv : Inv cfg s) (h : Next cfg s s') : Inv cfg s' := by
  obtain ⟨w, h | h⟩ := h
  · obtain ⟨p, hp⟩ := h
    exact execute_inv hInv hp
  · exact terminate_inv hInv h

theorem reachable_inv {cfg : Config τ δ ω} {s : State τ ω}
    (h : Reachable cfg s) : Inv cfg s := by
  obtain ⟨s₀, h₀, hsteps⟩ := h
  induction hsteps with
  | refl => exact init_inv h₀
  | tail _ hstep ih => exact next_inv ih hstep

end RunInOrder

namespace RunInOrder

variable {τ δ ω : Type} [DecidableEq τ] [DecidableEq ω] [Fintype ω]

theorem refine_activeTasks {s : State τ ω} :
    Stf.activeTasks (refineState s) = activeTasks s := rfl

theorem taskReady_refine {cfg : Config τ δ ω} {s : State τ ω} (hInv : Inv cfg s)
    {t : τ} {tid : ℤ} (h : TaskReady cfg s t tid) :
    Stf.TaskReady cfg (refineState s) t tid := by
  obtain ⟨inv1, inv2, inv3, inv4, inv5⟩ := hInv
  have hmem : ∀ p ∈ (refineState s).pendingTasks ∪ Stf.activeTasks (refineState s),
      p ∈ cfg.ControlFlow ∧ p ∉ s.terminatedTasks := by
    intro p hp
    rw [Finset.mem_union] at hp
    rcases hp with hp | hp
    · obtain ⟨w, hw⟩ := mem_pendingTasks.mp hp
      exact ⟨(mem_assigned.mp (inv1 w hw)).1, inv4 w p hw⟩
    · rw [refine_activeTasks] at hp
      obtain ⟨w, hw⟩ := mem_activeTasks.mp hp
      obtain ⟨hcf, _, hterm, _, _⟩ := inv2 w p hw
      exact ⟨hcf, hterm⟩
  intro d
  rcases h d with h1 | ⟨h1, h2⟩ | ⟨h1, h2⟩
  · exact Or.inl h1
  · refine Or.inr (Or.inl ⟨h1, ?_⟩)
    intro p hp
    rcases h2 p (hmem p hp).1 with hx | hx | hx | hx
    · exact Or.inl hx
    · exact Or.inr (Or.inl hx)
    · exact Or.inr (Or.inr hx)
    · exact absurd hx (hmem p hp).2
  · refine Or.inr (Or.inr ⟨h1, ?_⟩)
    intro p hp
    rcases h2 p (hmem p hp).1 with hx | hx | hx
    · exact Or.inl hx
    · exact Or.inr hx
    · exact absurd hx (hmem p hp).2

theorem next_refine {cfg : Config τ δ ω} {s s' : State τ ω}
    (hInv : Inv cfg s) (h : Next cfg s s') :
    Stf.Next cfg (refineState s) (refineState s') := by
  obtain ⟨w, h | h⟩ := h
  · obtain ⟨p, hidle, hmem, hmin, hready, hq', hws', ht'⟩ := h
    refine ⟨w, Or.inl ⟨p, mem_pendingTasks.mpr ⟨w, hmem⟩,
      taskReady_refine hInv hready, hidle, hws', ?_⟩⟩
    exact pending_after_execute hInv.1 (mem_assigned.mp (hInv.1 w hmem)).2 hq'
  · obtain ⟨p, hwp, hws', ht', hq'⟩ := h
    refine ⟨w, Or.inr ⟨⟨p, hwp⟩, hws', ?_⟩⟩
    show pendingTasks s' = pendingTasks s
    unfold pendingTasks
    rw [hq']

theorem next_changes {cfg : Config τ δ ω} {s s' : State τ ω} (h : Next cfg s s') :
    s'.workerStates ≠ s.workerStates := by
  obtain ⟨w, h | h⟩ := h
  · obtain ⟨p, hidle, _, _, _, _, hws', _⟩ := h
    intro he
    have h2 := congrArg (fun f => f w) (hws' ▸ he)
    simp only [Function.update_same] at h2
    rw [hidle] at h2
    cases h2
  · obtain ⟨p, hwp, hws', _, _⟩ := h
    intro he
    have h2 := congrArg (fun f => f w) (hws' ▸ he)
    simp only [Function.update_same] at h2
    rw [hwp] at h2
    cases h2

theorem next_ne {cfg : Config τ δ ω} {s s' : State τ ω} (h : Next cfg s s') :
    s' ≠ s :=
  fun he => next_changes h (congrArg State.workerStates he)

theorem next_refine_ne {cfg : Config τ δ ω} {s s' : State τ ω} (h : Next cfg s s') :
    refineState s' ≠ refineState s :=
  fun he => next_changes h (congrArg Stf.State.workerStates he)

theorem enabled_of_not_terminated {cfg : Config τ δ ω} {s : State τ ω}
    (hInv : Inv cfg s) (h : ¬ Terminated s) : Enabled cfg s := by
  by_cases hact : ∃ w p, s.workerStates w = some p
  · obtain ⟨w, p, hwp⟩ := hact
    refine ⟨⟨s.workerPendingTasks, s.terminatedTasks ∪ {p},
      Function.update s.workerStates w none⟩,
      ⟨w, Or.inr ⟨p, hwp, rfl, rfl, rfl⟩⟩, ?_⟩
    intro he
    have h2 := congrArg (fun f => f w) (congrArg State.workerStates he)
    simp only [Function.update_same] at h2
    rw [hwp] at h2
    cases h2
  · push_neg at hact
    have hidle : ∀ w, s.workerStates w = none := by
      intro w
      cases hsw : s.workerStates w with
      | none => rfl
      | some p => exact absurd hsw (hact w p)
    have hpend : (pendingTasks s).Nonempty := by
      rcases Finset.eq_empty_or_nonempty (pendingTasks s) with he | hne
      · exact absurd ⟨he, hidle⟩ h
      · exact hne
    obtain ⟨p, hp, hmin⟩ := Finset.exists_min_image (pendingTasks s) Prod.snd hpend
    obtain ⟨w, hw⟩ := mem_pendingTasks.mp hp
    have hpart : ∀ r ∈ cfg.ControlFlow, r ∈ pendingTasks s ∨ r ∈ s.terminatedTasks := by
      intro r hr
      rw [← hInv.2.2.2.2] at hr
      rw [Finset.mem_union, Finset.mem_union] at hr
      rcases hr with (hr | hr) | hr
      · exact Or.inl hr
      · obtain ⟨w', hw'⟩ := mem_activeTasks.mp hr
        rw [hidle w'] at hw'
        cases hw'
      · exact Or.inr hr
    have hready : TaskReady cfg s p.1 p.2 := by
      intro d
      cases hm : cfg.Tasks p.1 d with
      | NoAccess => exact Or.inl rfl
      | R =>
        refine Or.inr (Or.inl ⟨rfl, ?_⟩)
        intro r hr
        rcases hpart r hr with hr' | hr'
        · exact Or.inr (Or.inr (Or.inl (hmin r hr')))
        · exact Or.inr (Or.inr (Or.inr hr'))
      | W =>
        refine Or.inr (Or.inr ⟨rfl, ?_⟩)
        intro r hr
        rcases hpart r hr with hr' | hr'
        · exact Or.inr (Or.inl (hmin r hr'))
        · exact Or.inr (Or.inr hr')
    refine ⟨⟨Function.update s.workerPendingTasks w (s.workerPendingTasks w \ {p}),
      s.terminatedTasks, Function.update s.workerStates w (some p)⟩,
      ⟨w, Or.inl ⟨p, hidle w, hw,
        fun q hq => hmin q (mem_pendingTasks.mpr ⟨w, hq⟩), hready, rfl, rfl, rfl⟩⟩, ?_⟩
    intro he
    have h2 := congrArg (fun f => f w) (congrArg State.workerStates he)
    simp only [Function.update_same] at h2
    rw [hidle w] at h2
    cases h2

theorem stepMeasure_lt {cfg : Config τ δ ω} {s s' : State τ ω} (h : Next cfg s s') :
    stepMeasure s' < stepMeasure s := by
  obtain ⟨w, h | h⟩ := h
  · obtain ⟨p, hidle, hmem, hmin, hready, hq', hws', ht'⟩ := h
    have hsum : (∑ w' : ω, (s'.workerPendingTasks w').card) + 1 =
        ∑ w' : ω, (s.workerPendingTasks w').card := by
      have h1 := Finset.sum_eq_sum_diff_singleton_add (Finset.mem_univ w)
        fun w' => (s'.workerPendingTasks w').card
      have h2 := Finset.sum_eq_sum_diff_singleton_add (Finset.mem_univ w)
        fun w' => (s.workerPendingTasks w').card
      have h3 : (∑ w' ∈ Finset.univ \ {w}, (s'.workerPendingTasks w').card) =
          ∑ w' ∈ Finset.univ \ {w}, (s.workerPendingTasks w').card := by
        refine Finset.sum_congr rfl ?_
        intro x hx
        rw [Finset.mem_sdiff, Finset.mem_singleton] at hx
        rw [hq', Function.update_noteq hx.2]
      have h4 : (s'.workerPendingTasks w).card =
          (s.workerPendingTasks w).card - 1 := by
        rw [hq', Function.update_same,
          Finset.card_sdiff (Finset.singleton_subset_iff.mpr hmem)]
        simp
      have hpos : 1 ≤ (s.workerPendingTasks w).card :=
        Finset.card_pos.mpr ⟨p, hmem⟩
      omega
    have hset : (Finset.univ.filter fun w' : ω => s'.workerStates w' ≠ none) =
        insert w (Finset.univ.filter fun w' : ω => s.workerStates w' ≠ none) := by
      rw [hws']
      ext w'
      by_cases hww : w' = w
      · subst hww
        simp [Function.update_same]
      · simp [Function.update_noteq hww, hww]
    have hnot : w ∉ (Finset.univ.filter fun w' : ω => s.workerStates w' ≠ none) := by
      simp [hidle]
    have hfcard : (Finset.univ.filter fun w' : ω => s'.workerStates w' ≠ none).card =
        (Finset.univ.filter fun w' : ω => s.workerStates w' ≠ none).card + 1 := by
      rw [hset, Finset.card_insert_of_not_mem hnot]
    unfold stepMeasure
    omega
  · obtain ⟨p, hwp, hws', ht', hq'⟩ := h
    have hsum : (∑ w' : ω, (s'.workerPendingTasks w').card) =
        ∑ w' : ω, (s.workerPendingTasks w').card := by
      rw [hq']
    have hset : (Finset.univ.filter fun w' : ω => s'.workerStates w' ≠ none) =
        (Finset.univ.filter fun w' : ω => s.workerStates w' ≠ none).erase w := by
      rw [hws']
      ext w'
      by_cases hww : w' = w
      · subst hww
        simp [Function.update_same]
      · simp [Function.update_noteq hww, hww]
    have hmemf : w ∈ (Finset.univ.filter fun w' : ω => s.workerStates w' ≠ none) := by
      simp [hwp]
    have hpos : 1 ≤ (Finset.univ.filter fun w' : ω => s.workerStates w' ≠ none).card :=
      Finset.card_pos.mpr ⟨w, hmemf⟩
    have hfcard : (Finset.univ.filter fun w' : ω => s'.workerStates w' ≠ none).card =
        (Finset.univ.filter fun w' : ω => s.workerStates w' ≠ none).card - 1 := by
      rw [hset, Finset.card_erase_of_mem hmemf]
    unfold stepMeasure
    omega

theorem trace_reachable {cfg : Config τ δ ω} {σ : ℕ → State τ ω}
    (h : Trace cfg σ) : ∀ n, Reachable cfg (σ n) := by
  intro n
  induction n with
  | zero => exact ⟨σ 0, h.1, Relation.ReflTransGen.refl⟩
  | succ n ih =>
    rcases h.2 n with hstep | heq
    · obtain ⟨s₀, hi, htr⟩ := ih
      exact ⟨s₀, hi, htr.tail hstep⟩
    · rw [heq]
      exact ih

theorem next_queue_subset {cfg : Config τ δ ω} {s s' : State τ ω}
    (h : Next cfg s s') (w : ω) :
    s'.workerPendingTasks w ⊆ s.workerPendingTasks w := by
  obtain ⟨w', h | h⟩ := h
  · obtain ⟨p, _, _, _, _, hq', _, _⟩ := h
    rw [hq']
    by_cases hww : w = w'
    · rw [hww, Function.update_same]
      exact Finset.sdiff_subset
    · rw [Function.update_noteq hww]
  · obtain ⟨p, _, _, _, hq'⟩ := h
    rw [hq']

theorem trace_queue_subset {cfg : Config τ δ ω} {σ : ℕ → State τ ω}
    (h : Trace cfg σ) (w : ω) {m n : ℕ} (hmn : m ≤ n) :
    (σ n).workerPendingTasks w ⊆ (σ m).workerPendingTasks w := by
  induction n, hmn using Nat.le_induction with
  | base => exact Finset.Subset.refl _
  | succ n hmn ih =>
    refine Finset.Subset.trans ?_ ih
    rcases h.2 n with hstep | heq
    · exact next_queue_subset hstep w
    · rw [heq]

theorem stf_enabled_not_terminated {cfg : Config τ δ ω} {s : State τ ω}
    (h : Stf.Enabled cfg (refineState s)) : ¬ Terminated s := by
  obtain ⟨s'', hnext, _⟩ := h
  obtain ⟨w, hx | hx⟩ := hnext
  · obtain ⟨p, hp, _⟩ := hx
    intro ht
    have hp' : p ∈ pendingTasks s := hp
    rw [ht.1] at hp'
    cases hp'
  · obtain ⟨⟨p, hp⟩, _⟩ := hx
    intro ht
    have hp' : s.workerStates w = some p := hp
    rw [ht.2 w] at hp'
    cases hp'

end RunInOrder

namespace RunInOrder

variable {τ δ ω : Type} [DecidableEq τ] [DecidableEq ω] [Fintype ω]

theorem pending_active_mem {cfg : Config τ δ ω} {s : State τ ω} (hInv : Inv cfg s) :
    ∀ p ∈ pendingTasks s ∪ activeTasks s,
      p ∈ cfg.ControlFlow ∧ p ∉ s.terminatedTasks := by
  intro p hp
  rw [Finset.mem_union] at hp
  rcases hp with hp | hp
  · obtain ⟨w, hw⟩ := mem_pendingTasks.mp hp
    exact ⟨(mem_assigned.mp (hInv.1 w hw)).1, hInv.2.2.2.1 w p hw⟩
  · obtain ⟨w, hw⟩ := mem_activeTasks.mp hp
    obtain ⟨hcf, _, hterm, _, _⟩ := hInv.2.1 w p hw
    exact ⟨hcf, hterm⟩

theorem controlFlow_split {cfg : Config τ δ ω} {s : State τ ω} (hInv : Inv cfg s) :
    ∀ r ∈ cfg.ControlFlow,
      r ∈ pendingTasks s ∪ activeTasks s ∨ r ∈ s.terminatedTasks := by
  intro r hr
  rw [← hInv.2.2.2.2, Finset.mem_union] at hr
  exact hr

end RunInOrder

/-- Claim C3: data-race freedom is an invariant of every reachable state of
the `RunInOrder` step relation: no two simultaneously active tasks access
the same data item with at least one `Write`, except at equal identifiers
(the `DataRaceFreedom` predicate of `STFSpec` holds of every reachable
state, through the refinement mapping). -/
theorem dataRaceFreedom_reachable {τ δ ω : Type} [DecidableEq τ] [DecidableEq ω]
    [Fintype ω] (cfg : Config τ δ ω) (s : RunInOrder.State τ ω)
    (h : RunInOrder.Reachable cfg s) :
    Stf.DataRaceFreedom cfg (RunInOrder.refineState s) := by
  obtain ⟨inv1, inv2, inv3, inv4, inv5⟩ := RunInOrder.reachable_inv h
  intro p hp q hq d hw
  rw [RunInOrder.refine_activeTasks] at hp hq
  obtain ⟨wp, hwp⟩ := RunInOrder.mem_activeTasks.mp hp
  obtain ⟨wq, hwq⟩ := RunInOrder.mem_activeTasks.mp hq
  obtain ⟨hpcf, hpmap, hpterm, hpqs, hpready⟩ := inv2 wp p hwp
  obtain ⟨hqcf, hqmap, hqterm, hqqs, hqready⟩ := inv2 wq q hwq
  by_cases hqd : cfg.Tasks q.1 d = Mode.NoAccess
  · exact Or.inr hqd
  left
  have h1 : p.2 ≤ q.2 := by
    rcases hpready d with h1 | ⟨h1, _⟩ | ⟨_, h2⟩
    · cases h1.symm.trans hw
    · cases h1.symm.trans hw
    · rcases h2 q hqcf with hx | hx | hx
      · exact absurd hx hqd
      · exact hx
      · exact absurd hx hqterm
  have h2 : q.2 ≤ p.2 := by
    rcases hqready d with h1 | ⟨h1, h2⟩ | ⟨h1, h2⟩
    · exact absurd h1 hqd
    · rcases h2 p hpcf with hx | hx | hx | hx
      · cases hx.symm.trans hw
      · cases hx.symm.trans hw
      · exact hx
      · exact absurd hx hpterm
    · rcases h2 p hpcf with hx | hx | hx
      · cases hx.symm.trans hw
      · exact hx
      · exact absurd hx hpterm
  omega

/-- Claim C4: for every finite set of submitted tasks, execution
terminates: under the weak-fairness assumption of the `RunInOrder` model,
every behavior eventually reaches a state in which no task is pending and
no worker is executing. -/
theorem runInOrder_terminates {τ δ ω : Type} [DecidableEq τ] [DecidableEq ω]
    [Fintype ω] (cfg : Config τ δ ω) (σ : ℕ → RunInOrder.State τ ω)
    (hb : RunInOrder.Behavior cfg σ) :
    ∃ n, RunInOrder.Terminated (σ n) := by
  obtain ⟨htr, hwf⟩ := hb
  have hInv : ∀ n, RunInOrder.Inv cfg (σ n) := fun n =>
    RunInOrder.reachable_inv (RunInOrder.trace_reachable htr n)
  by_contra hno
  push_neg at hno
  have hen : ∀ m, RunInOrder.Enabled cfg (σ m) := fun m =>
    RunInOrder.enabled_of_not_terminated (hInv m) (hno m)
  have hdec : ∀ n, ∃ m, n ≤ m ∧
      RunInOrder.stepMeasure (σ (m + 1)) < RunInOrder.stepMeasure (σ m) := by
    intro n
    obtain ⟨m, hnm, hns⟩ := hwf n fun m _ => hen m
    exact ⟨m, hnm, RunInOrder.stepMeasure_lt hns.1⟩
  have hmono : ∀ k l, k ≤ l →
      RunInOrder.stepMeasure (σ l) ≤ RunInOrder.stepMeasure (σ k) := by
    intro k l hkl
    induction l, hkl using Nat.le_induction with
    | base => exact le_rfl
    | succ l hkl ih =>
      refine le_trans ?_ ih
      rcases htr.2 l with hstep | heq
      · exact le_of_lt (RunInOrder.stepMeasure_lt hstep)
      · rw [heq]
  have key : ∀ c n, RunInOrder.stepMeasure (σ n) ≤ c → False := by
    intro c
    induction c with
    | zero =>
      intro n hn
      obtain ⟨m, hnm, hlt⟩ := hdec n
      have := hmono n m hnm
      omega
    | succ c ih =>
      intro n hn
      obtain ⟨m, hnm, hlt⟩ := hdec n
      have := hmono n m hnm
      exact ih (m + 1) (by omega)
  exact key (RunInOrder.stepMeasure (σ 0)) 0 le_rfl

/-- Claim C1: every behavior of the `RunInOrder` model — `Init` followed by
any (possibly stuttering) sequence of `ExecuteTask`/`TerminateTask` steps
satisfying weak fairness of `Next` — refines, through the refinement
mapping, to a behavior of the abstract `STFSpec` specification, for every
choice of `Data`, `Tasks`, `Workers`, `ControlFlow` and deterministic
`Mapping` (the theorem `Spec => STF!Spec`). -/
theorem runInOrder_refines_stf {τ δ ω : Type} [DecidableEq τ] [DecidableEq ω]
    [Fintype ω] (cfg : Config τ δ ω) (σ : ℕ → RunInOrder.State τ ω)
    (hb : RunInOrder.Behavior cfg σ) :
    Stf.Behavior cfg fun n => RunInOrder.refineState (σ n) := by
  obtain ⟨htr, hwf⟩ := hb
  have hInv : ∀ n, RunInOrder.Inv cfg (σ n) := fun n =>
    RunInOrder.reachable_inv (RunInOrder.trace_reachable htr n)
  refine ⟨⟨RunInOrder.init_pendingTasks htr.1, htr.1.2.1⟩, ?_, ?_⟩
  · intro n
    rcases htr.2 n with hstep | heq
    · exact Or.inl (RunInOrder.next_refine (hInv n) hstep)
    · exact Or.inr (congrArg RunInOrder.refineState heq)
  · intro n h
    have hen : ∀ m, n ≤ m → RunInOrder.Enabled cfg (σ m) := fun m hm =>
      RunInOrder.enabled_of_not_terminated (hInv m)
        (RunInOrder.stf_enabled_not_terminated (h m hm))
    obtain ⟨m, hnm, hns⟩ := hwf n hen
    exact ⟨m, hnm, RunInOrder.next_refine (hInv m) hns.1,
      RunInOrder.next_refine_ne hns.1⟩

/-- Claim C2: for a head task `(t, tid)` of some worker's queue in a
reachable state, the resolver's readiness predicate `TaskReady(t, tid)`
holds if and only if for every data item: when the task reads it, no
pending or active task with a strictly smaller identifier writes it, and
when the task writes it, no pending or active task with a strictly
smaller identifier accesses it at all. -/
theorem taskReady_iff_no_earlier_conflict {τ δ ω : Type} [DecidableEq τ]
    [DecidableEq ω] [Fintype ω] (cfg : Config τ δ ω) (s : RunInOrder.State τ ω)
    (hreach : RunInOrder.Reachable cfg s) (w : ω) (t : τ) (tid : ℤ)
    (hhead : (t, tid) ∈ s.workerPendingTasks w)
    (hmin : ∀ q ∈ s.workerPendingTasks w, tid ≤ q.2) :
    RunInOrder.TaskReady cfg s t tid ↔
      ∀ d : δ,
        (cfg.Tasks t d = Mode.R →
          ∀ p ∈ RunInOrder.pendingTasks s ∪ RunInOrder.activeTasks s,
            p.2 < tid → cfg.Tasks p.1 d ≠ Mode.W) ∧
        (cfg.Tasks t d = Mode.W →
          ∀ p ∈ RunInOrder.pendingTasks s ∪ RunInOrder.activeTasks s,
            p.2 < tid → cfg.Tasks p.1 d = Mode.NoAccess) := by
  have hInv := RunInOrder.reachable_inv hreach
  constructor
  · intro h d
    constructor
    · intro hR p hp hlt
      rcases h d with h1 | ⟨h1, h2⟩ | ⟨h1, h2⟩
      · cases h1.symm.trans hR
      · intro hc
        rcases h2 p (RunInOrder.pending_active_mem hInv p hp).1 with hx | hx | hx | hx
        · cases hc.symm.trans hx
        · cases hc.symm.trans hx
        · omega
        · exact (RunInOrder.pending_active_mem hInv p hp).2 hx
      · cases h1.symm.trans hR
    · intro hW p hp hlt
      rcases h d with h1 | ⟨h1, h2⟩ | ⟨h1, h2⟩
      · cases h1.symm.trans hW
      · cases h1.symm.trans hW
      · rcases h2 p (RunInOrder.pending_active_mem hInv p hp).1 with hx | hx | hx
        · exact hx
        · omega
        · exact absurd hx (RunInOrder.pending_active_mem hInv p hp).2
  · intro h d
    cases hm : cfg.Tasks t d with
    | NoAccess => exact Or.inl rfl
    | R =>
      refine Or.inr (Or.inl ⟨rfl, ?_⟩)
      intro r hrcf
      rcases RunInOrder.controlFlow_split hInv r hrcf with hr' | hr'
      · by_cases hlt : r.2 < tid
        · have hnw := (h d).1 hm r hr' hlt
          cases hmode : cfg.Tasks r.1 d with
          | NoAccess => exact Or.inl rfl
          | R => exact Or.inr (Or.inl rfl)
          | W => exact absurd hmode hnw
        · exact Or.inr (Or.inr (Or.inl (by omega)))
      · exact Or.inr (Or.inr (Or.inr hr'))
    | W =>
      refine Or.inr (Or.inr ⟨rfl, ?_⟩)
      intro r hrcf
      rcases RunInOrder.controlFlow_split hInv r hrcf with hr' | hr'
      · by_cases hlt : r.2 < tid
        · exact Or.inl ((h d).2 hm r hr' hlt)
        · exact Or.inr (Or.inl (by omega))
      · exact Or.inr (Or.inr hr')

/-- Claim C5: a worker never overtakes its head: in every `ExecuteTask`
step the task started is a minimum-identifier element of that worker's
queue and is mapped to that worker, and two starts by the same worker in
a trace carry strictly increasing identifiers (assuming, as the data
model requires, that task identifiers are unique in the control flow). -/
theorem worker_executes_in_order {τ δ ω : Type} [DecidableEq τ] [DecidableEq ω]
    [Fintype ω] (cfg : Config τ δ ω) (σ : ℕ → RunInOrder.State τ ω)
    (htr : RunInOrder.Trace cfg σ)
    (huniq : ∀ p ∈ cfg.ControlFlow, ∀ q ∈ cfg.ControlFlow, p.2 = q.2 → p = q)
    (w : ω) (p q : τ × ℤ) (m n : ℕ) (hmn : m < n)
    (hp : RunInOrder.ExecuteTaskOn cfg w p (σ m) (σ (m + 1)))
    (hq : RunInOrder.ExecuteTaskOn cfg w q (σ n) (σ (n + 1))) :
    (∀ r ∈ (σ m).workerPendingTasks w, p.2 ≤ r.2) ∧
    cfg.Mapping p.2 = w ∧ p.2 < q.2 := by
  obtain ⟨hidle, hmem, hmin, hready, hq', hws', ht'⟩ := hp
  have hInvm := RunInOrder.reachable_inv (RunInOrder.trace_reachable htr m)
  have hpcf : p ∈ cfg.ControlFlow :=
    (RunInOrder.mem_assigned.mp (hInvm.1 w hmem)).1
  have hpmap : cfg.Mapping p.2 = w :=
    (RunInOrder.mem_assigned.mp (hInvm.1 w hmem)).2
  refine ⟨hmin, hpmap, ?_⟩
  have hqmem : q ∈ (σ n).workerPendingTasks w := hq.2.1
  have hq1 : q ∈ (σ (m + 1)).workerPendingTasks w :=
    RunInOrder.trace_queue_subset htr w hmn hqmem
  rw [hq', Function.update_same, Finset.mem_sdiff] at hq1
  have hqcf : q ∈ cfg.ControlFlow :=
    (RunInOrder.mem_assigned.mp (hInvm.1 w hq1.1)).1
  have hne : q ≠ p := by simpa using hq1.2
  rcases lt_or_eq_of_le (hmin q hq1.1) with hlt | heq
  · exact hlt
  · exact absurd (huniq p hpcf q hqcf heq).symm hne

/-- Claim C6: the task-state partition is an invariant: in every reachable
state, each pair of the control flow is pending (in at least one queue),
active (on some worker) or terminated; the three phases are pairwise
exclusive; a pending task is in exactly one worker's queue and an active
task is on exactly one worker. -/
theorem task_state_partition {τ δ ω : Type} [DecidableEq τ] [DecidableEq ω]
    [Fintype ω] (cfg : Config τ δ ω) (s : RunInOrder.State τ ω)
    (h : RunInOrder.Reachable cfg s) :
    ∀ p ∈ cfg.ControlFlow,
      ((∃ w, p ∈ s.workerPendingTasks w) ∨ (∃ w, s.workerStates w = some p) ∨
        p ∈ s.terminatedTasks) ∧
      ¬((∃ w, p ∈ s.workerPendingTasks w) ∧ ∃ w, s.workerStates w = some p) ∧
      ¬((∃ w, p ∈ s.workerPendingTasks w) ∧ p ∈ s.terminatedTasks) ∧
      ¬((∃ w, s.workerStates w = some p) ∧ p ∈ s.terminatedTasks) ∧
      (∀ w w', p ∈ s.workerPendingTasks w → p ∈ s.workerPendingTasks w' → w = w') ∧
      (∀ w w', s.workerStates w = some p → s.workerStates w' = some p → w = w') := by
  obtain ⟨inv1, inv2, inv3, inv4, inv5⟩ := RunInOrder.reachable_inv h
  intro p hp
  refine ⟨?_, ?_, ?_, ?_, ?_, ?_⟩
  · rw [← inv5, Finset.mem_union, Finset.mem_union] at hp
    rcases hp with (hx | hx) | hx
    · exact Or.inl (RunInOrder.mem_pendingTasks.mp hx)
    · exact Or.inr (Or.inl (RunInOrder.mem_activeTasks.mp hx))
    · exact Or.inr (Or.inr hx)
  · rintro ⟨⟨w, hw⟩, ⟨w', hw'⟩⟩
    exact (inv2 w' p hw').2.2.2.1 w hw
  · rintro ⟨⟨w, hw⟩, hterm'⟩
    exact inv4 w p hw hterm'
  · rintro ⟨⟨w, hw⟩, hterm'⟩
    exact (inv2 w p hw).2.2.1 hterm'
  · intro w w' hw hw'
    rw [← (RunInOrder.mem_assigned.mp (inv1 w hw)).2,
      ← (RunInOrder.mem_assigned.mp (inv1 w' hw')).2]
  · intro w w' hw hw'
    rw [← (inv2 w p hw).2.1, ← (inv2 w' p hw').2.1]

/-- Claim C9: readiness is stable under task termination: the terminated
set only grows across a `TerminateTask` step, and `ReadReady`,
`WriteReady` and `TaskReady` — in which the terminated set occurs only
positively — are all preserved by the step, so a ready head never becomes
unready before it starts. -/
theorem readiness_stable_under_terminate {τ δ ω : Type} [DecidableEq τ]
    [DecidableEq ω] [Fintype ω] (cfg : Config τ δ ω) (w : ω)
    (s s' : RunInOrder.State τ ω) (h : RunInOrder.TerminateTask w s s') :
    s.terminatedTasks ⊆ s'.terminatedTasks ∧
    (∀ (d : δ) (tid : ℤ),
      RunInOrder.ReadReady cfg s d tid → RunInOrder.ReadReady cfg s' d tid) ∧
    (∀ (d : δ) (tid : ℤ),
      RunInOrder.WriteReady cfg s d tid → RunInOrder.WriteReady cfg s' d tid) ∧
    ∀ (t : τ) (tid : ℤ),
      RunInOrder.TaskReady cfg s t tid → RunInOrder.TaskReady cfg s' t tid := by
  have hsub := RunInOrder.terminate_subset h
  exact ⟨hsub, fun d tid => RunInOrder.readReady_mono hsub,
    fun d tid => RunInOrder.writeReady_mono hsub,
    fun t tid => RunInOrder.taskReady_mono hsub⟩

/-!
Concrete runs of the model instances, used to discharge hypotheses.
-/

theorem trivState_init : RunInOrder.Init trivConfig trivState :=
  ⟨rfl, fun _ => rfl, fun w => by cases w; decide⟩

theorem trivSeq_behavior : RunInOrder.Behavior trivConfig trivSeq := by
  refine ⟨⟨trivState_init, fun n => Or.inr rfl⟩, ?_⟩
  intro n h
  exfalso
  obtain ⟨s', hnext, hne⟩ := h n le_rfl
  obtain ⟨w, hx | hx⟩ := hnext
  · obtain ⟨p, _, hp, _⟩ := hx
    exact absurd hp (Finset.not_mem_empty p)
  · obtain ⟨p, hp, _⟩ := hx
    cases hp

theorem oneInit_init : RunInOrder.Init oneConfig oneInit :=
  ⟨rfl, fun _ => rfl, fun w => by cases w; decide⟩

theorem oneInit_reachable : RunInOrder.Reachable oneConfig oneInit :=
  ⟨oneInit, oneInit_init, Relation.ReflTransGen.refl⟩

theorem chain_exec0 :
    RunInOrder.ExecuteTaskOn chainConfig () (false, 0) chainS0 chainS1 := by
  refine ⟨rfl, by decide, by decide, ?_, rfl, rfl, rfl⟩
  unfold RunInOrder.TaskReady RunInOrder.ReadReady RunInOrder.WriteReady
  decide

theorem chain_term1 : RunInOrder.TerminateTask () chainS1 chainS2 :=
  ⟨(false, 0), by decide, rfl, rfl, rfl⟩

theorem chain_exec2 :
    RunInOrder.ExecuteTaskOn chainConfig () (true, 1) chainS2 chainS3 := by
  refine ⟨by decide, by decide, by decide, ?_, rfl, rfl, rfl⟩
  unfold RunInOrder.TaskReady RunInOrder.ReadReady RunInOrder.WriteReady
  decide

theorem chain_term3 : RunInOrder.TerminateTask () chainS3 chainS4 :=
  ⟨(true, 1), by decide, rfl, rfl, rfl⟩

theorem chain_trace : RunInOrder.Trace chainConfig chainSeq := by
  refine ⟨⟨rfl, fun _ => rfl, fun w => by cases w; decide⟩, ?_⟩
  intro n
  match n with
  | 0 => exact Or.inl ⟨(), Or.inl ⟨(false, 0), chain_exec0⟩⟩
  | 1 => exact Or.inl ⟨(), Or.inr chain_term1⟩
  | 2 => exact Or.inl ⟨(), Or.inl ⟨(true, 1), chain_exec2⟩⟩
  | 3 => exact Or.inl ⟨(), Or.inr chain_term3⟩
  | (k + 4) => exact Or.inr rfl

/-- Witness for claim C1: the hypotheses are satisfiable — the constant
run of the empty instance is a fair behavior of `RunInOrder`, and the
refinement theorem yields the corresponding `STFSpec` behavior. -/
theorem runInOrder_refines_stf_witness :
    RunInOrder.Behavior trivConfig trivSeq ∧
    Stf.Behavior trivConfig fun n => RunInOrder.refineState (trivSeq n) :=
  ⟨trivSeq_behavior, runInOrder_refines_stf trivConfig trivSeq trivSeq_behavior⟩

/-- Witness for claim C4: the constant run of the empty instance is a
fair behavior, and it indeed reaches a terminated state. -/
theorem runInOrder_terminates_witness :
    RunInOrder.Behavior trivConfig trivSeq ∧
    ∃ n, RunInOrder.Terminated (trivSeq n) :=
  ⟨trivSeq_behavior, runInOrder_terminates trivConfig trivSeq trivSeq_behavior⟩

/-- Witness for claim C3: the initial state of the one-task instance is
reachable and data-race free. -/
theorem dataRaceFreedom_reachable_witness :
    RunInOrder.Reachable oneConfig oneInit ∧
    Stf.DataRaceFreedom oneConfig (RunInOrder.refineState oneInit) :=
  ⟨oneInit_reachable, dataRaceFreedom_reachable oneConfig oneInit oneInit_reachable⟩

/-- Witness for claim C2: in the initial state of the one-task instance,
the task `((), 0)` is the head of the single worker's queue and the
readiness characterization holds of it. -/
theorem taskReady_iff_no_earlier_conflict_witness :
    RunInOrder.Reachable oneConfig oneInit ∧
    ((), (0 : ℤ)) ∈ oneInit.workerPendingTasks () ∧
    (∀ q ∈ oneInit.workerPendingTasks (), (0 : ℤ) ≤ q.2) ∧
    (RunInOrder.TaskReady oneConfig oneInit () 0 ↔
      ∀ d : Unit,
        (oneConfig.Tasks () d = Mode.R →
          ∀ p ∈ RunInOrder.pendingTasks oneInit ∪ RunInOrder.activeTasks oneInit,
            p.2 < 0 → oneConfig.Tasks p.1 d ≠ Mode.W) ∧
        (oneConfig.Tasks () d = Mode.W →
          ∀ p ∈ RunInOrder.pendingTasks oneInit ∪ RunInOrder.activeTasks oneInit,
            p.2 < 0 → oneConfig.Tasks p.1 d = Mode.NoAccess)) :=
  ⟨oneInit_reachable, by decide, by decide,
    taskReady_iff_no_earlier_conflict oneConfig oneInit oneInit_reachable () () 0
      (by decide) (by decide)⟩

/-- Witness for claim C6: the initial state of the one-task instance is
reachable and its single task satisfies the partition property. -/
theorem task_state_partition_witness :
    RunInOrder.Reachable oneConfig oneInit ∧
    ∀ p ∈ oneConfig.ControlFlow,
      ((∃ w, p ∈ oneInit.workerPendingTasks w) ∨
        (∃ w, oneInit.workerStates w = some p) ∨ p ∈ oneInit.terminatedTasks) ∧
      ¬((∃ w, p ∈ oneInit.workerPendingTasks w) ∧
        ∃ w, oneInit.workerStates w = some p) ∧
      ¬((∃ w, p ∈ oneInit.workerPendingTasks w) ∧ p ∈ oneInit.terminatedTasks) ∧
      ¬((∃ w, oneInit.workerStates w = some p) ∧ p ∈ oneInit.terminatedTasks) ∧
      (∀ w w', p ∈ oneInit.workerPendingTasks w →
        p ∈ oneInit.workerPendingTasks w' → w = w') ∧
      (∀ w w', oneInit.workerStates w = some p →
        oneInit.workerStates w' = some p → w = w') :=
  ⟨oneInit_reachable, task_state_partition oneConfig oneInit oneInit_reachable⟩

/-- Witness for claim C5: in the two-task run, the worker starts
`(false, 0)` at instant 0 and `(true, 1)` at instant 2, and the
conclusion holds of this pair of starts. -/
theorem worker_executes_in_order_witness :
    RunInOrder.Trace chainConfig chainSeq ∧
    (∀ p ∈ chainConfig.ControlFlow, ∀ q ∈ chainConfig.ControlFlow,
      p.2 = q.2 → p = q) ∧
    0 < 2 ∧
    RunInOrder.ExecuteTaskOn chainConfig () (false, 0) (chainSeq 0) (chainSeq 1) ∧
    RunInOrder.ExecuteTaskOn chainConfig () (true, 1) (chainSeq 2) (chainSeq 3) ∧
    ((∀ r ∈ (chainSeq 0).workerPendingTasks (), (false, (0 : ℤ)).2 ≤ r.2) ∧
      chainConfig.Mapping (false, (0 : ℤ)).2 = () ∧
      (false, (0 : ℤ)).2 < (true, (1 : ℤ)).2) :=
  ⟨chain_trace, by decide, by decide, chain_exec0, chain_exec2,
    worker_executes_in_order chainConfig chainSeq chain_trace (by decide) ()
      (false, 0) (true, 1) 0 2 (by decide) chain_exec0 chain_exec2⟩

/-- Witness for claim C9: the step terminating `(false, 0)` in the
two-task run preserves all three readiness predicates. -/
theorem readiness_stable_under_terminate_witness :
    RunInOrder.TerminateTask () chainS1 chainS2 ∧
    (chainS1.terminatedTasks ⊆ chainS2.terminatedTasks ∧
      (∀ (d : Unit) (tid : ℤ), RunInOrder.ReadReady chainConfig chainS1 d tid →
        RunInOrder.ReadReady chainConfig chainS2 d tid) ∧
      (∀ (d : Unit) (tid : ℤ), RunInOrder.WriteReady chainConfig chainS1 d tid →
        RunInOrder.WriteReady chainConfig chainS2 d tid) ∧
      ∀ (t : Bool) (tid : ℤ), RunInOrder.TaskReady chainConfig chainS1 t tid →
        RunInOrder.TaskReady chainConfig chainS2 t tid) :=
  ⟨chain_term1,
    readiness_stable_under_terminate chainConfig () chainS1 chainS2 chain_term1⟩

/-- Claim C7, evaluated at the failing input: the very first value
produced by the generator seeded with `0x92d68ca2` yields three pairwise
distinct indices (59, 18, 73), yet `run()` stores `count2_codelet`
(2 buffers, modes `R, R`) in the task while assigning 3 handles, so the
task accesses only two handles, both `Read` — not three distinct handles
with modes `Read, Read, Write` as the specified scenario requires. -/
theorem counter_deps_distinct_indices_get_count2 :
    CounterDeps.rng_out 0 = 2665565789183166779 ∧
    CounterDeps.idx_1 (CounterDeps.rng_out 0) ≠ CounterDeps.idx_2 (CounterDeps.rng_out 0) ∧
    CounterDeps.idx_1 (CounterDeps.rng_out 0) ≠ CounterDeps.idx_3 (CounterDeps.rng_out 0) ∧
    CounterDeps.idx_2 (CounterDeps.rng_out 0) ≠ CounterDeps.idx_3 (CounterDeps.rng_out 0) ∧
    (CounterDeps.build_task (CounterDeps.rng_out 0)).cl = CounterDeps.count2_codelet ∧
    (CounterDeps.build_task (CounterDeps.rng_out 0)).handles.length = 3 ∧
    CounterDeps.accesses (CounterDeps.build_task (CounterDeps.rng_out 0)) =
      [(59, CounterDeps.StarpuMode.R), (18, CounterDeps.StarpuMode.R)] := by
  decide

/-- Counterexample for claim C8: the `else` branch of `run()` that
assigns 3 handles while setting `count2_codelet` is reached on the very
first generator output, whose three derived indices are pairwise
distinct. -/
theorem counter_deps_else3_reached :
    CounterDeps.rng_out 0 = 2665565789183166779 ∧
    CounterDeps.reaches_else3 (CounterDeps.rng_out 0) = true := by
  decide

/-- Claim C8 as amended: the `else` branch of `run()` that sets
`count2_codelet` while assigning 3 handles is reachable — the first
generator output already reaches it — and what is wrong with it is its
inconsistency (a 3-handle task built with a 2-buffer codelet), not
unreachability. -/
theorem counter_deps_else3_reachable_with_count2 :
    CounterDeps.reaches_else3 (CounterDeps.rng_out 0) = true ∧
    (CounterDeps.build_task (CounterDeps.rng_out 0)).cl = CounterDeps.count2_codelet ∧
    (CounterDeps.build_task (CounterDeps.rng_out 0)).handles.length = 3 ∧
    CounterDeps.count2_codelet.nbuffers = 2 := by
  decide

/-- Claim C10: every handle-array access of `run()` is in bounds: for
every 64-bit generator output, each derived index is strictly smaller
than `N_DATA = 128`, the number of handles allocated and registered by
`init()`. -/
theorem counter_deps_indices_in_bounds (x : Nat) :
    CounterDeps.idx_1 x < CounterDeps.N_DATA ∧
    CounterDeps.idx_2 x < CounterDeps.N_DATA ∧
    CounterDeps.idx_3 x < CounterDeps.N_DATA ∧
    CounterDeps.N_DATA = 128 :=
  ⟨Nat.mod_lt _ (by decide), Nat.mod_lt _ (by decide), Nat.mod_lt _ (by decide), rfl⟩
